import Mathlib

/-!
Shallow embedding of the word-matching engine of `PlayerR9/lib_units`
(package `runes`: `src/runes/stream.go` and `src/runes/matcher.go`),
together with theorems settling the specification claims about it.

Conventions of the embedding:
* Go `rune` values are `Char` (all runes in this code originate from valid
  strings or rune-slice literals).
* Go `[]rune` is `List Char`; Go strings that are only built from rune
  slices are kept as `List Char` (for a `[]rune` slice `w`,
  `utf8.RuneCountInString(string(w))` equals `len(w)`, since every rune —
  valid or replaced by U+FFFD — contributes exactly one code point).
* A Go method returning `(T, bool)` becomes `Option T`; a mutating method
  returns the updated structure.
* Errors built with `errors.New` / `fmt.Errorf` are represented by
  inductive error types carrying the same data that is interpolated into
  the message.
-/

set_option autoImplicit false

deriving instance DecidableEq for Except

namespace LibUnits

/-- The character stream of `src/runes/stream.go` (`Stream`): a fixed rune
slice `chars`, the cursor `pos` and the checkpoint `last_accept`.
`pos` and `last_accept` are Go `int`s that the code never drives below 0
(both start at 0, `Next` only increments, `Refuse` is guarded by
`pos == 0`, `RefuseMany` copies `last_accept`), so they are embedded as
`Nat`. -/
structure Stream where
  chars : List Char
  pos : Nat
  last_accept : Nat
  deriving Repr, DecidableEq

/-- `NewStream` (stream.go): cursor and checkpoint start at 0. -/
def NewStream (b : List Char) : Stream :=
  { chars := b, pos := 0, last_accept := 0 }

/-- `Stream.IsDone` (stream.go): true iff `pos >= len(chars)`. -/
def Stream.IsDone (s : Stream) : Bool :=
  s.chars.length ≤ s.pos

/-- `Stream.Peek` (stream.go): the character at the cursor, without moving;
Go returns `(utf8.RuneError, false)` past the end, embedded as `none`. -/
def Stream.Peek (s : Stream) : Option Char :=
  s.chars.get? s.pos

/-- `Stream.Next` (stream.go): the character at the cursor, advancing the
cursor by one; past the end the cursor does not move and Go returns
`(utf8.RuneError, false)`, embedded as `none`. -/
def Stream.Next (s : Stream) : Option Char × Stream :=
  match s.chars.get? s.pos with
  | none => (none, s)
  | some c => (some c, { s with pos := s.pos + 1 })

/-- `Stream.Refuse` (stream.go): move the cursor back one position;
returns `false` (cursor unchanged) when the cursor is already at 0. -/
def Stream.Refuse (s : Stream) : Bool × Stream :=
  if s.pos = 0 then (false, s)
  else (true, { s with pos := s.pos - 1 })

/-- `Stream.RefuseMany` (stream.go): reset the cursor to the checkpoint. -/
def Stream.RefuseMany (s : Stream) : Stream :=
  { s with pos := s.last_accept }

/-- `Stream.Accept` (stream.go): set the checkpoint to the cursor. -/
def Stream.Accept (s : Stream) : Stream :=
  { s with last_accept := s.pos }

/-- The operations of the `CharStream` interface (stream.go), used to state
claims quantifying over arbitrary operation sequences. -/
inductive Op where
  | isDone
  | peek
  | next
  | refuse
  | refuseMany
  | accept
  deriving Repr, DecidableEq

/-- The state transition of one `CharStream` operation on a `Stream`
(`IsDone` and `Peek` are read-only; the values returned by `Next` and
`Refuse` do not affect the state). -/
def applyOp (s : Stream) : Op → Stream
  | .isDone => s
  | .peek => s
  | .next => (s.Next).2
  | .refuse => (s.Refuse).2
  | .refuseMany => s.RefuseMany
  | .accept => s.Accept

/-- Run a sequence of `CharStream` operations on a `Stream`. -/
def runOps (s : Stream) (ops : List Op) : Stream :=
  ops.foldl applyOp s

/-- `WordMatcher` (src/runes/matcher.go): the list of registered words. -/
structure WordMatcher where
  words : List (List Char)
  deriving Repr, DecidableEq

/-- `NewWordMatcher` (matcher.go): starts with no words. -/
def NewWordMatcher : WordMatcher :=
  { words := [] }

/-- `WordMatcher.get_word_at` (matcher.go): the word at an index; callers
ignore the `bool` and use the `nil` slice for an out-of-range index, so the
embedding returns `[]` there. -/
def WordMatcher.get_word_at (wm : WordMatcher) (idx : Nat) : List Char :=
  wm.words.getD idx []

/-- The first scan of `AddWord` (matcher.go lines 53-61): the indices of
registered words with the same length as the new word and the same first
character. -/
def WordMatcher.dupInit (wm : WordMatcher) (chars : List Char) : List Nat :=
  (List.range wm.words.length).filter fun i =>
    (wm.words.getD i []).length = chars.length ∧
      (wm.words.getD i []).get? 0 = chars.get? 0

/-- One run of the narrowing loop of `AddWord` (matcher.go lines 63-69)
over a list of remaining positions: each position `i` filters the candidate
indices by `wm.words[idx][i] == chars[i]`; the Go loop stops as soon as the
index list is empty. -/
def dupNarrow (wm : WordMatcher) (chars : List Char) :
    List Nat → List Nat → List Nat
  | [], indices => indices
  | i :: rest, indices =>
    if indices = [] then indices
    else dupNarrow wm chars rest
      (indices.filter fun idx => (wm.words.getD idx []).get? i = chars.get? i)

/-- The narrowing loop of `AddWord` (matcher.go lines 63-69): positions
`1, …, len(chars)-1` narrow the initial candidate set. -/
def WordMatcher.dupSurvivors (wm : WordMatcher) (chars : List Char) : List Nat :=
  dupNarrow wm chars (List.range' 1 (chars.length - 1)) (wm.dupInit chars)

/-- The error returned by `AddWord` (matcher.go): the only error source is
the `gcch.StringToUtf8` decoding of the input string, which cannot fail on
an input that is already a list of code points, so the embedding never
produces it. -/
inductive AddErr where
  | badEncoding (byteIdx : Nat)
  deriving Repr, DecidableEq

/-- `WordMatcher.AddWord` (matcher.go): an empty word is ignored; the new
word is appended exactly when the duplicate-detection narrowing leaves no
surviving candidate; the result is `nil` (`none`) on every path after
decoding (the embedding receives the already-decoded code points). -/
def WordMatcher.AddWord (wm : WordMatcher) (chars : List Char) :
    WordMatcher × Option AddErr :=
  if chars = [] then (wm, none)
  else if wm.dupSurvivors chars = [] then
    ({ words := wm.words ++ [chars] }, none)
  else (wm, none)

/-- Register a list of words in order, as the tests do (matcher_test.go). -/
def addAll (wm : WordMatcher) (ws : List (List Char)) : WordMatcher :=
  ws.foldl (fun a w => (a.AddWord w).1) wm

/-- The helper struct `matcher` (matcher.go lines 166-178): surviving
indices, position, and the accumulated word (`strings.Builder` as a
`List Char`). The `wm` field is passed explicitly instead. -/
structure MState where
  indices : List Nat
  pos : Nat
  word : List Char
  deriving Repr, DecidableEq

/-- `matcher.match` (matcher.go lines 184-210): keep the indices whose word
is already exhausted (`pos >= len(word)`) or agrees with the peeked
character at `pos`; if none survives return `true` with the state
unchanged, else advance `pos`, keep the survivors, append the character. -/
def MState.mmatch (wm : WordMatcher) (m : MState) (char : Char) :
    Bool × MState :=
  let kept := m.indices.filter fun idx =>
    (wm.get_word_at idx).length ≤ m.pos ∨
      (wm.get_word_at idx).get? m.pos = some char
  if kept = [] then (true, m)
  else (false, { indices := kept, pos := m.pos + 1, word := m.word ++ [char] })

/-- The errors of `matcher.get_sol` (matcher.go lines 232-268):
`errors.New("no matches found")`, `fmt.Errorf("no matches found for %q", …)`
and `fmt.Errorf("multiple matches found for %q: %s", …)` with the list of
tied words. -/
inductive MatchErr where
  | noMatches
  | noMatchesFor (acc : List Char)
  | multipleMatches (acc : List Char) (candidates : List (List Char))
  deriving Repr, DecidableEq

/-- The body of the longest-word selection loop of `get_sol` (matcher.go
lines 245-255), iterated over the fully-matched indices while carrying the
Go locals `(max_len, max_idx)`. -/
def maxSelGo (wm : WordMatcher) : List Nat → Nat × List Nat → Nat × List Nat
  | [], st => st
  | idx :: rest, st =>
    maxSelGo wm rest
      (if st.2 = [] ∨ st.1 < (wm.get_word_at idx).length then
        ((wm.get_word_at idx).length, [idx])
      else if (wm.get_word_at idx).length = st.1 then (st.1, st.2 ++ [idx])
      else st)

/-- The longest-word selection loop of `get_sol` (matcher.go lines 242-255):
`max_len` starts at `0` and `max_idx` starts empty. -/
def maxSel (wm : WordMatcher) (indices : List Nat) : Nat × List Nat :=
  maxSelGo wm indices (0, [])

/-- `matcher.get_sol` (matcher.go lines 217-274): restrict to fully-matched
candidates (`len(word) <= pos`); error when none; among the longest, a tie
is a `multipleMatches` error, a single one is the solution (Go indexes
`max_idx[0]`, embedded as `headD 0` — the list is non-empty there). -/
def MState.get_sol (wm : WordMatcher) (m : MState) :
    Except MatchErr (List Char) :=
  let indices := m.indices.filter fun idx =>
    (wm.get_word_at idx).length ≤ m.pos
  if indices = [] then
    if m.word = [] then .error .noMatches
    else .error (.noMatchesFor m.word)
  else
    let max_idx := (maxSel wm indices).2
    if 1 < max_idx.length then
      .error (.multipleMatches m.word (max_idx.map wm.get_word_at))
    else .ok (wm.get_word_at (max_idx.headD 0))

/-- Apply `Stream.Refuse` `n` times, ignoring the returned flag, as the
push-back loops of `Match` do (matcher.go lines 114-116 and 131-133). -/
def refuseN : Nat → Stream → Stream
  | 0, s => s
  | n + 1, s => refuseN n (s.Refuse).2

/-- The common exit code of `Match` (matcher.go lines 111-123 and 128-140):
resolve with `get_sol`, push back `next_count - size` characters where
`size` is the rune count of the returned word (`0` on the error paths,
where the word is `""`), then return the word or the error. -/
def finishUp (wm : WordMatcher) (m : MState) (s : Stream) (next_count : Nat) :
    Except MatchErr (List Char) × Stream :=
  match m.get_sol wm with
  | .ok w => (.ok w, refuseN (next_count - w.length) s)
  | .error e => (.error e, refuseN next_count s)

/-- The main loop of `Match` (matcher.go lines 108-146), with explicit fuel:
peek; when the stream is done or narrowing gets stuck, resolve and push
back; otherwise consume the character (`is.Next()`) and continue. The Go
loop is unbounded; `Match_isSome` below shows the fuel
`s.chars.length - s.pos + 1` chosen in `Match` always suffices, so `none`
never escapes. -/
def matchLoop (wm : WordMatcher) :
    Nat → MState → Stream → Nat → Option (Except MatchErr (List Char) × Stream)
  | 0, _, _, _ => none
  | fuel + 1, m, s, next_count =>
    match s.Peek with
    | none => some (finishUp wm m s next_count)
    | some char =>
      match m.mmatch wm char with
      | (true, m') => some (finishUp wm m' s next_count)
      | (false, m') => matchLoop wm fuel m' (s.Next).2 (next_count + 1)

/-- `WordMatcher.Match` (matcher.go lines 89-147): all registered indices
are candidates, `pos` and `next_count` start at 0. The `is == nil` guard
has no counterpart here (the embedded stream is always a value). -/
def WordMatcher.Match (wm : WordMatcher) (s : Stream) :
    Option (Except MatchErr (List Char) × Stream) :=
  matchLoop wm (s.chars.length - s.pos + 1)
    { indices := List.range wm.words.length, pos := 0, word := [] } s 0

/-- The errors of `MultiMatcher` (matcher.go lines 288-318):
`NewErrInvalidParameter` for an empty character list, and the two
`fmt.Errorf` mismatch messages (the `stream == nil` guard has no
counterpart here). -/
inductive MMErr where
  | emptyChars
  | gotNothing (want : Char)
  | mismatch (want got : Char)
  deriving Repr, DecidableEq

/-- The push-back loop of `MultiMatcher` (matcher.go lines 301-304 and
312-315): `for size > 0 { _ = stream.Refuse() }`. The loop body never
changes `size`, so the embedding carries the unchanged `size` through every
iteration and spends fuel; `none` models non-termination (the loop exits
only when `size` is `0` on entry). -/
def refuseAllLoop : Nat → Nat → Stream → Option Stream
  | _, 0, s => some s
  | 0, _ + 1, _ => none
  | fuel + 1, size + 1, s => refuseAllLoop fuel (size + 1) (s.Refuse).2

/-- The loop body of `MultiMatcher` (matcher.go lines 298-322): for each
expected character, peek (end of stream runs the push-back loop and reports
`gotNothing`), append the peeked character to the builder, compare (a
mismatch runs the push-back loop and reports `mismatch`), else consume and
increment `size`. -/
def mmLoop (fuel : Nat) :
    List Char → Stream → List Char → Nat →
      Option (Except MMErr (List Char) × Stream)
  | [], s, acc, _ => some (.ok acc, s)
  | c :: cs, s, acc, size =>
    match s.Peek with
    | none =>
      (refuseAllLoop fuel size s).map fun s' => (.error (.gotNothing c), s')
    | some char =>
      if char ≠ c then
        (refuseAllLoop fuel size s).map fun s' =>
          (.error (.mismatch c char), s')
      else mmLoop fuel cs (s.Next).2 (acc ++ [char]) (size + 1)

/-- `MultiMatcher` (matcher.go lines 288-325), with fuel for its internal
push-back loops. -/
def MultiMatcher (fuel : Nat) (chars : List Char) (s : Stream) :
    Option (Except MMErr (List Char) × Stream) :=
  if chars = [] then some (.error .emptyChars, s)
  else mmLoop fuel chars s [] 0

/-- The matcher of `TestMatch` / `TestMiddleMatch` (matcher_test.go):
the words `"foo"`, `"bar"`, `"baz"`, `"foobar"` registered in that order. -/
def wmFoo : WordMatcher :=
  addAll NewWordMatcher
    [['f', 'o', 'o'], ['b', 'a', 'r'], ['b', 'a', 'z'],
      ['f', 'o', 'o', 'b', 'a', 'r']]

/-- A matcher holding two tied two-character words and a one-character word,
registered through `AddWord`. -/
def wmTied : WordMatcher :=
  addAll NewWordMatcher [['a', 'b'], ['a', 'c'], ['a']]

/-! ## Basic facts about the stream operations -/

theorem peek_some_lt {s : Stream} {c : Char} (h : s.Peek = some c) :
    s.pos < s.chars.length := by
  have : s.chars.get? s.pos = some c := h
  exact (List.get?_eq_some.mp this).1

theorem Next_snd_of_peek {s : Stream} {c : Char} (h : s.Peek = some c) :
    (s.Next).2 = { s with pos := s.pos + 1 } := by
  have hg : s.chars.get? s.pos = some c := h
  unfold Stream.Next
  rw [hg]

theorem Next_snd_of_peek_none {s : Stream} (h : s.Peek = none) :
    (s.Next).2 = s := by
  have hg : s.chars.get? s.pos = none := h
  unfold Stream.Next
  rw [hg]

theorem Refuse_snd_chars (s : Stream) :
    (s.Refuse).2.chars = s.chars ∧ (s.Refuse).2.last_accept = s.last_accept := by
  unfold Stream.Refuse
  split <;> exact ⟨rfl, rfl⟩

theorem refuseN_chars (n : Nat) (s : Stream) :
    (refuseN n s).chars = s.chars ∧ (refuseN n s).last_accept = s.last_accept := by
  induction n generalizing s with
  | zero => exact ⟨rfl, rfl⟩
  | succ k ih =>
    have h1 := ih (s.Refuse).2
    have h2 := Refuse_snd_chars s
    rw [refuseN]
    exact ⟨h1.1.trans h2.1, h1.2.trans h2.2⟩

theorem refuseN_pos (n : Nat) (s : Stream) (h : n ≤ s.pos) :
    (refuseN n s).pos + n = s.pos := by
  induction n generalizing s with
  | zero => rfl
  | succ k ih =>
    rw [refuseN]
    have hpos : (s.Refuse).2 = { s with pos := s.pos - 1 } := by
      unfold Stream.Refuse
      rw [if_neg (by omega)]
    rw [hpos]
    have := ih { s with pos := s.pos - 1 } (by simp; omega)
    simp at this ⊢
    omega

/-! ## The push-back loop of MultiMatcher never terminates when size > 0 -/

theorem refuseAllLoop_succ_eq_none :
    ∀ (fuel size : Nat) (s : Stream), refuseAllLoop fuel (size + 1) s = none := by
  intro fuel
  induction fuel with
  | zero => intro size s; rfl
  | succ f ih => intro size s; exact ih size (s.Refuse).2

/-- **C1** (evidence for the code bug). `MultiMatcher(['a','b','c'],
stream over "abd")` never returns: after consuming `'a'` and `'b'` the
mismatch `'d' ≠ 'c'` is reached with `size = 2`, and the push-back loop
`for size > 0 { _ = stream.Refuse() }` (matcher.go lines 312-314) never
decreases `size`, so the call diverges for every amount of fuel — it never
terminates with the cursor restored to 0 and a mismatch error, as the claim
requires. -/
theorem MultiMatcher_abd_diverges (fuel : Nat) :
    MultiMatcher fuel ['a', 'b', 'c'] (NewStream ['a', 'b', 'd']) = none := by
  have h : MultiMatcher fuel ['a', 'b', 'c'] (NewStream ['a', 'b', 'd']) =
      (refuseAllLoop fuel 2 ⟨['a', 'b', 'd'], 2, 0⟩).map
        (fun s' => (.error (.mismatch 'c' 'd'), s')) := rfl
  have h2 : refuseAllLoop fuel 2 ⟨['a', 'b', 'd'], 2, 0⟩ = none :=
    refuseAllLoop_succ_eq_none fuel 1 ⟨['a', 'b', 'd'], 2, 0⟩
  rw [h, h2]
  rfl

/-! ## The stream invariant (C7) -/

theorem applyOp_bounds (s : Stream) (o : Op)
    (hp : s.pos ≤ s.chars.length) (ha : s.last_accept ≤ s.chars.length) :
    (applyOp s o).chars = s.chars ∧
    (applyOp s o).pos ≤ s.chars.length ∧
    (applyOp s o).last_accept ≤ s.chars.length := by
  cases o with
  | isDone => exact ⟨rfl, hp, ha⟩
  | peek => exact ⟨rfl, hp, ha⟩
  | next =>
    simp only [applyOp]
    cases hg : s.Peek with
    | none => rw [Next_snd_of_peek_none hg]; exact ⟨rfl, hp, ha⟩
    | some c =>
      rw [Next_snd_of_peek hg]
      have := peek_some_lt hg
      exact ⟨rfl, by simp; omega, ha⟩
  | refuse =>
    simp only [applyOp]
    unfold Stream.Refuse
    split
    · exact ⟨rfl, hp, ha⟩
    · exact ⟨rfl, by simp; omega, ha⟩
  | refuseMany => exact ⟨rfl, ha, ha⟩
  | accept => exact ⟨rfl, hp, hp⟩

theorem runOps_invariant :
    ∀ (ops : List Op) (s : Stream),
      s.pos ≤ s.chars.length → s.last_accept ≤ s.chars.length →
      (runOps s ops).chars = s.chars ∧
      (runOps s ops).pos ≤ s.chars.length ∧
      (runOps s ops).last_accept ≤ s.chars.length := by
  intro ops
  induction ops with
  | nil => intro s hp ha; exact ⟨rfl, hp, ha⟩
  | cons o rest ih =>
    intro s hp ha
    have hb := applyOp_bounds s o hp ha
    have hrec := ih (applyOp s o) (by rw [hb.1]; exact hb.2.1) (by rw [hb.1]; exact hb.2.2)
    have hrun : runOps s (o :: rest) = runOps (applyOp s o) rest := rfl
    rw [hrun]
    refine ⟨by rw [hrec.1, hb.1], ?_, ?_⟩
    · have := hrec.2.1; rw [hb.1] at this; exact this
    · have := hrec.2.2; rw [hb.1] at this; exact this

/-- **C7** (amended): for every stream created by `NewStream` and every
finite sequence of `CharStream` operations, the cursor and the checkpoint
each stay between 0 and the length of the backing sequence after every
operation; the claimed `checkpoint ≤ cursor` part of the invariant does not
hold (see the counterexample), because `Refuse` may move the cursor below
the checkpoint. -/
theorem runOps_cursor_checkpoint_bounded (b : List Char) (ops : List Op) :
    (runOps (NewStream b) ops).pos ≤ b.length ∧
    (runOps (NewStream b) ops).last_accept ≤ b.length := by
  have h := runOps_invariant ops (NewStream b) (Nat.zero_le _) (Nat.zero_le _)
  exact ⟨h.2.1, h.2.2⟩

/-- **C7** counterexample: on a fresh one-character stream, the operation
sequence `Next; Accept; Refuse` leaves `last_accept = 1` and `pos = 0`, so
the claimed invariant `checkpoint ≤ cursor` fails after the `Refuse`. -/
theorem runOps_checkpoint_exceeds_cursor :
    runOps (NewStream ['a']) [Op.next, Op.accept, Op.refuse] =
      { chars := ['a'], pos := 0, last_accept := 1 } ∧
    ¬ ((runOps (NewStream ['a']) [Op.next, Op.accept, Op.refuse]).last_accept ≤
        (runOps (NewStream ['a']) [Op.next, Op.accept, Op.refuse]).pos) := by
  decide

/-- **C4** (evidence for the code bug): evaluating the `TestDuplicates`
sequence, all three `AddWord` calls return `nil` — the third call silently
skips the duplicate word instead of returning the non-nil error that the
claim (and the repository's own `TestDuplicates`) expects. -/
theorem AddWord_hello_third_returns_nil :
    (NewWordMatcher.AddWord ['h', 'e', 'l', 'l', 'o']).2 = none ∧
    ((NewWordMatcher.AddWord ['h', 'e', 'l', 'l', 'o']).1.AddWord
        ['h', 'e', 'l', 'l', 'o', '1']).2 = none ∧
    (((NewWordMatcher.AddWord ['h', 'e', 'l', 'l', 'o']).1.AddWord
        ['h', 'e', 'l', 'l', 'o', '1']).1.AddWord ['h', 'e', 'l', 'l', 'o']) =
      ({ words := [['h', 'e', 'l', 'l', 'o'], ['h', 'e', 'l', 'l', 'o', '1']] },
        none) := by
  decide

/-- **C6**: with exactly the words `"foo"`, `"bar"`, `"baz"`, `"foobar"`
registered, `Match` on a fresh stream over `"foobar"` returns
`("foobar", nil)` (longest full match wins over the `"foo"` candidate), and
`Match` on a fresh stream over `"fooba"` returns `("foo", nil)` (the longest
fully-matched candidate once `"foobar"` cannot be completed). -/
theorem Match_foobar_and_fooba :
    wmFoo.words = [['f', 'o', 'o'], ['b', 'a', 'r'], ['b', 'a', 'z'],
      ['f', 'o', 'o', 'b', 'a', 'r']] ∧
    wmFoo.Match (NewStream ['f', 'o', 'o', 'b', 'a', 'r']) =
      some (Except.ok ['f', 'o', 'o', 'b', 'a', 'r'],
        { chars := ['f', 'o', 'o', 'b', 'a', 'r'], pos := 6, last_accept := 0 }) ∧
    wmFoo.Match (NewStream ['f', 'o', 'o', 'b', 'a']) =
      some (Except.ok ['f', 'o', 'o'],
        { chars := ['f', 'o', 'o', 'b', 'a'], pos := 3, last_accept := 0 }) := by
  decide

/-! ## AddWord duplicate detection (C5, C10) -/

theorem dupNarrow_mem (wm : WordMatcher) (chars : List Char) :
    ∀ (l indices : List Nat) (x : Nat),
      x ∈ dupNarrow wm chars l indices →
      x ∈ indices ∧ ∀ i ∈ l, (wm.words.getD x []).get? i = chars.get? i := by
  intro l
  induction l with
  | nil =>
    intro indices x hx
    exact ⟨hx, by intro i hi; cases hi⟩
  | cons i rest ih =>
    intro indices x hx
    rw [dupNarrow] at hx
    split at hx
    · next hemp => rw [hemp] at hx; cases hx
    · have h := ih _ x hx
      have hf := List.mem_filter.mp h.1
      refine ⟨hf.1, ?_⟩
      intro j hj
      rcases List.mem_cons.mp hj with hji | hjr
      · rw [hji]; exact of_decide_eq_true hf.2
      · exact h.2 j hjr

theorem dupInit_mem (wm : WordMatcher) (chars : List Char) (x : Nat)
    (hx : x ∈ wm.dupInit chars) :
    x < wm.words.length ∧ (wm.words.getD x []).length = chars.length ∧
      (wm.words.getD x []).get? 0 = chars.get? 0 := by
  have h := List.mem_filter.mp hx
  have h1 := List.mem_range.mp h.1
  have h2 := of_decide_eq_true h.2
  exact ⟨h1, h2.1, h2.2⟩

/-- **C5**: for a non-empty word, `AddWord` returns `nil` and leaves the
registered words unchanged whenever the duplicate-detection scan (same
length, same first character, narrowed position by position) leaves a
surviving candidate; otherwise it appends the word and returns `nil`. -/
theorem AddWord_duplicate_silently_skipped (wm : WordMatcher) (w : List Char)
    (hw : w ≠ []) :
    (wm.dupSurvivors w ≠ [] → wm.AddWord w = (wm, none)) ∧
    (wm.dupSurvivors w = [] →
      wm.AddWord w = ({ words := wm.words ++ [w] }, none)) := by
  constructor <;> intro h <;> simp [WordMatcher.AddWord, hw, h]

/-- Witness for `AddWord_duplicate_silently_skipped`: re-adding the only
registered word is a silent no-op. -/
theorem AddWord_duplicate_silently_skipped_witness :
    WordMatcher.AddWord { words := [['a', 'b']] } ['a', 'b'] =
      ({ words := [['a', 'b']] }, none) :=
  (AddWord_duplicate_silently_skipped { words := [['a', 'b']] } ['a', 'b']
    (by decide)).1 (by decide)

/-- **C10**: a non-empty word sharing length and first character with some
registered word, but differing from every such word at some later position,
is appended by `AddWord` (the narrowing-based duplicate check does not
falsely reject it) with a `nil` error. -/
theorem AddWord_no_false_duplicate (wm : WordMatcher) (w : List Char)
    (hw : w ≠ [])
    (hex : ∃ u ∈ wm.words, u.length = w.length ∧ u.get? 0 = w.get? 0)
    (hdiff : ∀ u ∈ wm.words, u.length = w.length → u.get? 0 = w.get? 0 →
      ∃ i, 1 ≤ i ∧ i < w.length ∧ u.get? i ≠ w.get? i) :
    wm.AddWord w = ({ words := wm.words ++ [w] }, none) := by
  have hds : wm.dupSurvivors w = [] := by
    rw [List.eq_nil_iff_forall_not_mem]
    intro x hx
    have h := dupNarrow_mem wm w _ _ x hx
    have h0 := dupInit_mem wm w x h.1
    obtain ⟨v, hv⟩ : ∃ v, wm.words.get? x = some v := by
      rw [List.get?_eq_get h0.1]
      exact ⟨_, rfl⟩
    have hgd : wm.words.getD x [] = v := by
      rw [List.getD_eq_getElem?_getD, ← List.get?_eq_getElem?, hv]
      rfl
    have hmem : v ∈ wm.words := List.get?_mem hv
    obtain ⟨i, h1i, hiw, hne⟩ :=
      hdiff v hmem (hgd ▸ h0.2.1) (hgd ▸ h0.2.2)
    have hlen1 : 1 ≤ w.length := List.length_pos.mpr hw
    have hir : i ∈ List.range' 1 (w.length - 1) := by
      rw [List.mem_range'_1]
      omega
    have := h.2 i hir
    rw [hgd] at this
    exact hne this
  simp [WordMatcher.AddWord, hw, hds]

/-- Witness for `AddWord_no_false_duplicate`: `"ac"` is appended next to
`"ab"`. -/
theorem AddWord_no_false_duplicate_witness :
    WordMatcher.AddWord { words := [['a', 'b']] } ['a', 'c'] =
      ({ words := [['a', 'b'], ['a', 'c']] }, none) :=
  AddWord_no_false_duplicate { words := [['a', 'b']] } ['a', 'c'] (by decide)
    ⟨['a', 'b'], by decide, by decide, by decide⟩
    (by
      intro u hu h1 h2
      have hu' : u = ['a', 'b'] := by simpa using hu
      rw [hu']
      exact ⟨1, Nat.le_refl 1, by decide, by decide⟩)

/-! ## Structure of one narrowing step and of the resolution (get_sol) -/

theorem mmatch_spec (wm : WordMatcher) (m : MState) (c : Char) (b : Bool)
    (m' : MState) (h : m.mmatch wm c = (b, m')) :
    (b = true ∧ m' = m) ∨
    (b = false ∧ m'.pos = m.pos + 1 ∧ m'.word = m.word ++ [c] ∧
      m'.indices ≠ [] ∧
      ∀ idx, idx ∈ m'.indices → idx ∈ m.indices ∧
        ((wm.get_word_at idx).length ≤ m.pos ∨
          (wm.get_word_at idx).get? m.pos = some c)) := by
  simp only [MState.mmatch] at h
  split at h
  · left
    injection h with h1 h2
    exact ⟨h1.symm, h2.symm⟩
  · next hne =>
    right
    injection h with h1 h2
    refine ⟨h1.symm, by rw [← h2], by rw [← h2], by rw [← h2]; exact hne, ?_⟩
    intro idx hidx
    rw [← h2] at hidx
    have hf := List.mem_filter.mp hidx
    exact ⟨hf.1, of_decide_eq_true hf.2⟩

theorem maxSelGo_mem (wm : WordMatcher) :
    ∀ (l : List Nat) (st : Nat × List Nat) (x : Nat),
      x ∈ (maxSelGo wm l st).2 → x ∈ st.2 ∨ x ∈ l := by
  intro l
  induction l with
  | nil => intro st x hx; exact Or.inl hx
  | cons idx rest ih =>
    intro st x hx
    rw [maxSelGo] at hx
    rcases ih _ x hx with h | h
    · by_cases h1 : st.2 = [] ∨ st.1 < (wm.get_word_at idx).length
      · rw [if_pos h1] at h
        simp only [List.mem_singleton] at h
        exact Or.inr (by rw [h]; exact List.mem_cons_self _ _)
      · rw [if_neg h1] at h
        by_cases h2 : (wm.get_word_at idx).length = st.1
        · rw [if_pos h2] at h
          rcases List.mem_append.mp h with h | h
          · exact Or.inl h
          · simp only [List.mem_singleton] at h
            exact Or.inr (by rw [h]; exact List.mem_cons_self _ _)
        · rw [if_neg h2] at h
          exact Or.inl h
    · exact Or.inr (List.mem_cons_of_mem _ h)

theorem maxSelGo_ne_nil (wm : WordMatcher) :
    ∀ (l : List Nat) (st : Nat × List Nat),
      st.2 ≠ [] → (maxSelGo wm l st).2 ≠ [] := by
  intro l
  induction l with
  | nil => intro st h; exact h
  | cons idx rest ih =>
    intro st h
    rw [maxSelGo]
    apply ih
    by_cases h1 : st.2 = [] ∨ st.1 < (wm.get_word_at idx).length
    · rw [if_pos h1]; simp
    · rw [if_neg h1]
      by_cases h2 : (wm.get_word_at idx).length = st.1
      · rw [if_pos h2]; simp
      · rw [if_neg h2]; exact h

theorem maxSel_snd_ne_nil (wm : WordMatcher) (l : List Nat) (h : l ≠ []) :
    (maxSel wm l).2 ≠ [] := by
  cases l with
  | nil => exact absurd rfl h
  | cons a rest =>
    unfold maxSel
    rw [maxSelGo]
    apply maxSelGo_ne_nil
    rw [if_pos (Or.inl rfl)]
    simp

theorem get_sol_ok_spec (wm : WordMatcher) (m : MState) (w : List Char)
    (h : m.get_sol wm = Except.ok w) :
    ∃ idx, idx ∈ m.indices ∧ w = wm.get_word_at idx ∧ w.length ≤ m.pos := by
  simp only [MState.get_sol] at h
  split at h
  · split at h <;> cases h
  · next hne =>
    split at h
    · cases h
    · injection h with h
      set indices := m.indices.filter
        (fun idx => decide ((wm.get_word_at idx).length ≤ m.pos)) with hind
      have hmne : (maxSel wm indices).2 ≠ [] := maxSel_snd_ne_nil wm indices hne
      obtain ⟨y, ys, hy⟩ : ∃ y ys, (maxSel wm indices).2 = y :: ys := by
        cases hcase : (maxSel wm indices).2 with
        | nil => exact absurd hcase hmne
        | cons y ys => exact ⟨y, ys, rfl⟩
      have hhead : (maxSel wm indices).2.headD 0 = y := by rw [hy]; rfl
      have hymem : y ∈ (maxSel wm indices).2 := by
        rw [hy]; exact List.mem_cons_self _ _
      have := maxSelGo_mem wm indices (0, []) y hymem
      rcases this with hc | hc
      · cases hc
      · have hf := List.mem_filter.mp hc
        refine ⟨y, hf.1, ?_, ?_⟩
        · rw [← h, hhead]
        · rw [← h, hhead]
          exact of_decide_eq_true hf.2

/-! ## Termination of Match (C9) -/

theorem matchLoop_isSome (wm : WordMatcher) :
    ∀ (fuel : Nat) (m : MState) (s : Stream) (nc : Nat),
      0 < fuel → s.chars.length < fuel + s.pos →
      (matchLoop wm fuel m s nc).isSome := by
  intro fuel
  induction fuel with
  | zero => intro m s nc h; exact absurd h (Nat.lt_irrefl 0)
  | succ f ih =>
    intro m s nc _ hlen
    rw [matchLoop]
    split
    · simp
    · next c hp =>
      split
      · simp
      · next m2 hb =>
        have hlt := peek_some_lt hp
        rw [Next_snd_of_peek hp]
        apply ih
        · omega
        · simp
          omega

/-- **C9**: for every matcher and every stream, `Match` terminates: the
fuel `s.chars.length - s.pos + 1` (one iteration per remaining character,
plus the final resolution) always suffices, because every loop iteration
either returns or consumes one character via `Next`. -/
theorem Match_terminates (wm : WordMatcher) (s : Stream) :
    (wm.Match s).isSome := by
  unfold WordMatcher.Match
  apply matchLoop_isSome <;> omega

/-! ## The cursor-accounting and soundness invariant of the match loop -/

theorem finishUp_spec (wm : WordMatcher) (m : MState) (s : Stream) (nc : Nat)
    (res : Except MatchErr (List Char)) (s' : Stream)
    (h : finishUp wm m s nc = (res, s'))
    (hpos : m.pos = nc) (hnc : nc ≤ s.pos)
    (hbound : nc ≠ 0 → s.pos ≤ s.chars.length)
    (hagree : ∀ i, i < nc → m.word.get? i = s.chars.get? (s.pos - nc + i))
    (hcand : ∀ idx, idx ∈ m.indices → ∀ i, i < nc →
      i < (wm.get_word_at idx).length →
      (wm.get_word_at idx).get? i = m.word.get? i) :
    s'.chars = s.chars ∧ s'.last_accept = s.last_accept ∧
    (∀ w, res = Except.ok w →
      s'.pos + nc = s.pos + w.length ∧
      (∀ i, i < w.length → w.get? i = s.chars.get? (s.pos - nc + i)) ∧
      (w = [] ∨ s.pos - nc + w.length ≤ s.chars.length)) ∧
    (∀ e, res = Except.error e → s'.pos + nc = s.pos) := by
  unfold finishUp at h
  cases hg : m.get_sol wm with
  | ok w0 =>
    rw [hg] at h
    injection h with h1 h2
    obtain ⟨idx, hmem, hww, hwlen⟩ := get_sol_ok_spec wm m w0 hg
    rw [hpos] at hwlen
    subst h1
    subst h2
    have hrc := refuseN_chars (nc - w0.length) s
    have hrp := refuseN_pos (nc - w0.length) s (by omega)
    refine ⟨hrc.1, hrc.2, ?_, ?_⟩
    · intro w hw
      injection hw with hw
      subst hw
      refine ⟨by omega, ?_, ?_⟩
      · intro i hi
        have hcnd := hcand idx hmem i (by omega) (by rw [← hww]; exact hi)
        have hag := hagree i (by omega)
        rw [hww, hcnd, hag]
      · by_cases hz : w0 = []
        · exact Or.inl hz
        · right
          have hz1 : 1 ≤ w0.length := List.length_pos.mpr hz
          have := hbound (by omega)
          omega
    · intro e he
      cases he
  | error e0 =>
    rw [hg] at h
    injection h with h1 h2
    subst h1
    subst h2
    have hrc := refuseN_chars nc s
    have hrp := refuseN_pos nc s hnc
    refine ⟨hrc.1, hrc.2, ?_, ?_⟩
    · intro w hw
      cases hw
    · intro e he
      omega

/-- The loop invariant of `Match`: starting the loop at position `nc` with a
consistent matcher state, the final stream keeps the backing characters and
the checkpoint; on success the cursor lands exactly `w.length` code points
after the pre-loop cursor and the returned word spells out the stream
characters there; on error the cursor returns exactly to the pre-loop
cursor. -/
theorem matchLoop_master (wm : WordMatcher) :
    ∀ (fuel : Nat) (m : MState) (s : Stream) (nc : Nat)
      (res : Except MatchErr (List Char)) (s' : Stream),
      matchLoop wm fuel m s nc = some (res, s') →
      m.pos = nc →
      m.word.length = nc →
      nc ≤ s.pos →
      (nc ≠ 0 → s.pos ≤ s.chars.length) →
      (∀ i, i < nc → m.word.get? i = s.chars.get? (s.pos - nc + i)) →
      (∀ idx, idx ∈ m.indices → ∀ i, i < nc →
        i < (wm.get_word_at idx).length →
        (wm.get_word_at idx).get? i = m.word.get? i) →
      s'.chars = s.chars ∧ s'.last_accept = s.last_accept ∧
      (∀ w, res = Except.ok w →
        s'.pos + nc = s.pos + w.length ∧
        (∀ i, i < w.length → w.get? i = s.chars.get? (s.pos - nc + i)) ∧
        (w = [] ∨ s.pos - nc + w.length ≤ s.chars.length)) ∧
      (∀ e, res = Except.error e → s'.pos + nc = s.pos) := by
  intro fuel
  induction fuel with
  | zero => intro m s nc res s' h; cases h
  | succ f ih =>
    intro m s nc res s' h hpos hwlen hnc hbound hagree hcand
    rw [matchLoop] at h
    split at h
    · injection h with h
      exact finishUp_spec wm m s nc res s' h hpos hnc hbound hagree hcand
    · next c hp =>
      split at h
      · next m2 hb =>
        injection h with h
        rcases mmatch_spec wm m c true m2 hb with ⟨_, hm⟩ | ⟨hfalse, _⟩
        · rw [hm] at h
          exact finishUp_spec wm m s nc res s' h hpos hnc hbound hagree hcand
        · cases hfalse
      · next m2 hb =>
        rcases mmatch_spec wm m c false m2 hb with ⟨htrue, _⟩ |
          ⟨_, hm2pos, hm2word, _, hm2ind⟩
        · cases htrue
        · have hlt := peek_some_lt hp
          have hpc : s.chars.get? s.pos = some c := hp
          rw [Next_snd_of_peek hp] at h
          have hsub : s.pos + 1 - (nc + 1) = s.pos - nc := by omega
          have hagree2 : ∀ i, i < nc + 1 →
              m2.word.get? i = s.chars.get? (s.pos - nc + i) := by
            intro i hi
            rw [hm2word]
            rcases Nat.lt_or_ge i nc with hlt2 | hge
            · rw [List.get?_append (by rw [hwlen]; exact hlt2)]
              exact hagree i hlt2
            · have hie : i = nc := by omega
              subst hie
              rw [← hwlen, List.get?_concat_length]
              have heq : s.pos - m.word.length + m.word.length = s.pos := by
                omega
              rw [heq, hpc]
          have hcand2 : ∀ idx, idx ∈ m2.indices → ∀ i, i < nc + 1 →
              i < (wm.get_word_at idx).length →
              (wm.get_word_at idx).get? i = m2.word.get? i := by
            intro idx hidx i hi hilen
            obtain ⟨hmem0, hdis⟩ := hm2ind idx hidx
            rw [hm2word]
            rcases Nat.lt_or_ge i nc with hlt2 | hge
            · rw [List.get?_append (by rw [hwlen]; exact hlt2)]
              exact hcand idx hmem0 i hlt2 hilen
            · have hie : i = nc := by omega
              subst hie
              rw [← hwlen, List.get?_concat_length]
              rw [hpos, ← hwlen] at hdis
              rcases hdis with hd | hd
              · exact absurd hilen (by rw [← hwlen]; omega)
              · exact hd
          have H := ih m2 { s with pos := s.pos + 1 } (nc + 1) res s' h
            (by rw [hm2pos, hpos])
            (by rw [hm2word]; simp [hwlen])
            (by simp; omega)
            (by intro _; simp; omega)
            (by intro i hi; have := hagree2 i hi; simpa [hsub] using this)
            (by intro idx hidx i hi hilen; exact hcand2 idx hidx i hi hilen)
          obtain ⟨Hc, Hl, Hok, Herr⟩ := H
          refine ⟨Hc, Hl, ?_, ?_⟩
          · intro w hw
            obtain ⟨Hp, Ha, Hb⟩ := Hok w hw
            refine ⟨?_, ?_, ?_⟩
            · simp at Hp
              omega
            · intro i hi
              have := Ha i hi
              simpa [hsub] using this
            · rcases Hb with Hb | Hb
              · exact Or.inl Hb
              · right
                simp [hsub] at Hb
                exact Hb
          · intro e he
            have := Herr e he
            simp at this
            omega

/-- **C2**: whenever `Match` returns a word with a `nil` error, the stream
cursor has advanced by exactly the number of code points of the returned
word relative to its position at call start, regardless of how many
characters were consumed internally during narrowing. -/
theorem Match_ok_advances (wm : WordMatcher) (s : Stream) (w : List Char)
    (s' : Stream) (h : wm.Match s = some (Except.ok w, s')) :
    s'.pos = s.pos + w.length := by
  unfold WordMatcher.Match at h
  have H := matchLoop_master wm _ _ s 0 _ _ h rfl rfl (Nat.zero_le _)
    (fun hh => absurd rfl hh) (fun i hi => absurd hi (Nat.not_lt_zero i))
    (fun idx _ i hi _ => absurd hi (Nat.not_lt_zero i))
  have := (H.2.2.1 w rfl).1
  omega

/-- Witness for `Match_ok_advances`: matching `"fooba"` returns `"foo"` and
leaves the cursor at position `0 + 3`. -/
theorem Match_ok_advances_witness :
    (⟨['f', 'o', 'o', 'b', 'a'], 3, 0⟩ : Stream).pos =
      (NewStream ['f', 'o', 'o', 'b', 'a']).pos +
        (['f', 'o', 'o'] : List Char).length :=
  Match_ok_advances wmFoo (NewStream ['f', 'o', 'o', 'b', 'a'])
    ['f', 'o', 'o'] ⟨['f', 'o', 'o', 'b', 'a'], 3, 0⟩ (by decide)

/-- **C3**: for a stream whose cursor starts at its checkpoint, whenever
`Match` returns a non-nil error, the cursor at return equals its position
at call start — the error path fully rolls back all consumption (the
checkpoint hypothesis is the claim's; the rollback in fact never consults
the checkpoint). -/
theorem Match_error_restores (wm : WordMatcher) (s : Stream) (e : MatchErr)
    (s' : Stream) (hcp : s.pos = s.last_accept)
    (h : wm.Match s = some (Except.error e, s')) :
    s'.pos = s.pos := by
  unfold WordMatcher.Match at h
  have H := matchLoop_master wm _ _ s 0 _ _ h rfl rfl (Nat.zero_le _)
    (fun hh => absurd rfl hh) (fun i hi => absurd hi (Nat.not_lt_zero i))
    (fun idx _ i hi _ => absurd hi (Nat.not_lt_zero i))
  have := H.2.2.2 e rfl
  omega

/-- Witness for `Match_error_restores`: a matcher with no words fails on
`"x"` with the cursor back at 0. -/
theorem Match_error_restores_witness :
    (⟨['x'], 0, 0⟩ : Stream).pos = (NewStream ['x']).pos :=
  Match_error_restores { words := [] } (NewStream ['x']) MatchErr.noMatches
    ⟨['x'], 0, 0⟩ rfl (by decide)

/-- **C8** (amended): if two distinct registered words of equal length are
both consistent with every character the stream still holds, `Match` never
returns either of them as a successful match: a successful word is fully
matched against stream characters, and two distinct equal-length words
cannot both be. (The originally claimed ambiguous-match error does not
occur in this situation — see the counterexample, where a no-match error is
returned instead.) -/
theorem Match_tied_words_not_returned (wm : WordMatcher) (s : Stream)
    (w1 w2 : List Char) (h1 : w1 ∈ wm.words) (h2 : w2 ∈ wm.words)
    (hne : w1 ≠ w2) (hlen : w1.length = w2.length)
    (hc1 : ∀ i, i < w1.length → s.pos + i < s.chars.length →
      w1.get? i = s.chars.get? (s.pos + i))
    (hc2 : ∀ i, i < w2.length → s.pos + i < s.chars.length →
      w2.get? i = s.chars.get? (s.pos + i))
    (w : List Char) (s' : Stream)
    (h : wm.Match s = some (Except.ok w, s')) :
    w ≠ w1 ∧ w ≠ w2 := by
  unfold WordMatcher.Match at h
  have H := matchLoop_master wm _ _ s 0 _ _ h rfl rfl (Nat.zero_le _)
    (fun hh => absurd rfl hh) (fun i hi => absurd hi (Nat.not_lt_zero i))
    (fun idx _ i hi _ => absurd hi (Nat.not_lt_zero i))
  obtain ⟨-, -, Hok, -⟩ := H
  obtain ⟨-, Ha, Hb⟩ := Hok w rfl
  simp only [Nat.sub_zero] at Ha Hb
  have key : ∀ (u v : List Char), u ∈ wm.words → v ∈ wm.words →
      u.length = v.length →
      (∀ i, i < v.length → s.pos + i < s.chars.length →
        v.get? i = s.chars.get? (s.pos + i)) →
      w = u → v = u := by
    intro u v hu hv huv hcv hwu
    subst hwu
    rcases Hb with Hb | Hb
    · rw [Hb] at huv ⊢
      exact List.length_eq_zero.mp huv.symm
    · apply List.ext
      intro n
      rcases Nat.lt_or_ge n w.length with hn | hn
      · rw [hcv n (by omega) (by omega), Ha n hn]
      · rw [List.get?_eq_none.mpr (by omega), List.get?_eq_none.mpr hn]
  constructor
  · intro hww
    exact hne (key w1 w2 h1 h2 hlen hc2 hww).symm
  · intro hww
    exact hne (key w2 w1 h2 h1 hlen.symm hc1 hww)

/-- Witness for `Match_tied_words_not_returned`: with `"ab"`, `"ac"` and
`"a"` registered, matching the one-character stream `"a"` succeeds with
`"a"`, which is neither tied word. -/
theorem Match_tied_words_not_returned_witness :
    (['a'] : List Char) ≠ ['a', 'b'] ∧ (['a'] : List Char) ≠ ['a', 'c'] :=
  Match_tied_words_not_returned wmTied (NewStream ['a']) ['a', 'b'] ['a', 'c']
    (by decide) (by decide) (by decide) (by decide)
    (by decide) (by decide)
    ['a'] ⟨['a'], 1, 0⟩ (by decide)

/-- **C8** counterexample: `"ab"` and `"ac"` are distinct registered words
of equal length, both consistent with the single character the stream
holds (the stream is exhausted before they would diverge), yet `Match`
returns the no-match error for the consumed prefix `"a"`, not an
ambiguous-match error enumerating the tied candidates. -/
theorem Match_tied_words_cex :
    (['a', 'b'] : List Char) ≠ ['a', 'c'] ∧
    (['a', 'b'] : List Char).length = (['a', 'c'] : List Char).length ∧
    (addAll NewWordMatcher [['a', 'b'], ['a', 'c']]).words =
      [['a', 'b'], ['a', 'c']] ∧
    (addAll NewWordMatcher [['a', 'b'], ['a', 'c']]).Match (NewStream ['a']) =
      some (Except.error (MatchErr.noMatchesFor ['a']),
        { chars := ['a'], pos := 0, last_accept := 0 }) ∧
    (addAll NewWordMatcher [['a', 'b'], ['a', 'c']]).Match (NewStream ['a']) ≠
      some (Except.error
        (MatchErr.multipleMatches ['a'] [['a', 'b'], ['a', 'c']]),
        { chars := ['a'], pos := 0, last_accept := 0 }) := by
  decide

end LibUnits
